import Mathlib

/-!
Shallow embedding of the retrieval-augmented question-answering pipeline
(`src/app.py`).  Strings are modelled as `List Char`; Python's string
operations (`in`, `split`, `lower`, `strip`, slicing) are given explicit
executable counterparts.  Fallible external collaborators (the PDF parser,
Google Drive downloads, the LLM streaming call) are modelled by explicit
outcome types, so that the control flow of the Python code around them can
be reproduced exactly.
-/

/-- Strings are modelled as lists of characters. -/
abbrev Str := List Char

/-- Python `str.lower()` (character-wise lowering; agrees with Python on ASCII). -/
def pyLower (s : Str) : Str := s.map Char.toLower

/-- Python whitespace test used by `str.strip()` (ASCII whitespace). -/
def pyIsSpace (c : Char) : Bool :=
  c == ' ' || c == '\t' || c == '\n' || c == '\r' || c.toNat == 11 || c.toNat == 12

/-- Python `str.strip()`: drop leading and trailing whitespace. -/
def pyStrip (s : Str) : Str :=
  ((s.dropWhile pyIsSpace).reverse.dropWhile pyIsSpace).reverse

/-- `begins pat s` is true iff `pat` is a prefix of `s`. -/
def begins : Str → Str → Bool
  | [], _ => true
  | _ :: _, [] => false
  | p :: ps, c :: cs => p == c && begins ps cs

/-- Python's substring test `pat in s`. -/
def substrB : Str → Str → Bool
  | pat, [] => pat.isEmpty
  | pat, c :: t => begins pat (c :: t) || substrB pat t

/-- Worker for `splitSeq`, with fuel bounding the number of scanning steps. -/
def splitGo (sep : Str) : Nat → Str → Str → List Str
  | _, [], acc => [acc.reverse]
  | 0, s, acc => [acc.reverse ++ s]
  | fuel + 1, c :: t, acc =>
    if begins sep (c :: t) then
      acc.reverse :: splitGo sep fuel ((c :: t).drop sep.length) []
    else
      splitGo sep fuel t (c :: acc)

/-- Python `s.split(sep)` for a non-empty separator: split at the leftmost
non-overlapping occurrences of `sep`.  (Python raises on an empty separator;
the code only ever splits on non-empty literals.) -/
def splitSeq (sep s : Str) : List Str :=
  if sep.isEmpty then [s] else splitGo sep s.length s []

/-- A decimal digit character, as produced by Python `str(int)`. -/
def digitChar : Nat → Char
  | 0 => '0' | 1 => '1' | 2 => '2' | 3 => '3' | 4 => '4'
  | 5 => '5' | 6 => '6' | 7 => '7' | 8 => '8' | 9 => '9'
  | _ => '?'

/-- Worker for `natStr`. -/
def natStrAux : Nat → Nat → Str → Str
  | 0, _, acc => acc
  | fuel + 1, n, acc =>
    if n < 10 then digitChar n :: acc
    else natStrAux fuel (n / 10) (digitChar (n % 10) :: acc)

/-- Python `str(n)` for a natural number: decimal rendering. -/
def natStr (n : Nat) : Str := natStrAux (n + 1) n []

/-- The page-marker split literal `'--- Page'` used by `search_pdfs`. -/
def pageMarker : Str := "--- Page".toList

/-- The literal `'---'` used for page-label recovery. -/
def dashes3 : Str := "---".toList

/-- Outcome of `page.extract_text()` on one page of a parsed PDF:
either the extracted text, or an exception. -/
inductive PageRead where
  | ok (text : Str)
  | failed
deriving DecidableEq

/-- The residue that the `'--- Page'` split leaves at the head of a page
segment: `' N ---\n'` for page number `k`. -/
def segHead (k : Nat) : Str := ' ' :: (natStr k ++ " ---\n".toList)

/-- The tag `'\n--- Page k ---\n'` prepended to each page's text by the
extractor (`text += f"\n--- Page {page_num + 1} ---\n{page_text}"`). -/
def pageTag (k : Nat) : Str := "\n--- Page ".toList ++ natStr k ++ " ---\n".toList

/-- The accumulation loop of `extract_text_from_pdf_bytes`: pages are visited
in order; a page whose `extract_text()` raises propagates to the enclosing
`except`, so the loop stops and only the text accumulated so far is returned. -/
def extractLoop : List PageRead → Nat → Str
  | [], _ => []
  | PageRead.ok t :: rest, n => pageTag (n + 1) ++ t ++ extractLoop rest (n + 1)
  | PageRead.failed :: _, _ => []

/-- `extract_text_from_pdf_bytes`: `none` models a byte stream on which the
`PyPDF2.PdfReader` constructor raises (whole-document parse failure, caught by
the `except`, returning the empty accumulator); `some pages` models a parsed
document whose pages yield the given per-page outcomes. -/
def extract_text_from_pdf_bytes : Option (List PageRead) → Str
  | none => []
  | some pages => extractLoop pages 0

/-- Fully successful extraction over the given page texts. -/
def extractOk : List Str → Nat → Str
  | [], _ => []
  | t :: ts, n => pageTag (n + 1) ++ t ++ extractOk ts (n + 1)

/-- A search result, as built by `search_pdfs`. -/
structure SearchHit where
  filename : Str
  page : Str
  content : Str
deriving DecidableEq

/-- Page-label recovery in `search_pdfs`:
`page.split('---')[0].strip() if '---' in page else "Unknown"`. -/
def pageLabel (page : Str) : Str :=
  if substrB dashes3 page then pyStrip ((splitSeq dashes3 page).headD [])
  else "Unknown".toList

/-- `search_pdfs(query, pdf_content)`: lower-case the query once; for every
document (in insertion order) split its text on `'--- Page'`; every segment
containing the lowered query (case-insensitively) yields one hit carrying the
recovered page label and the first 1000 characters of the segment. -/
def search_pdfs (query : Str) (pdf_content : List (Str × Str)) : List SearchHit :=
  let ql := pyLower query
  pdf_content.flatMap fun fc =>
    ((splitSeq pageMarker fc.2).filter fun page => substrB ql (pyLower page)).map
      fun page => { filename := fc.1, page := pageLabel page, content := page.take 1000 }

/-- A chat message `{role, content}`. -/
structure Msg where
  role : Str
  content : Str
deriving DecidableEq

/-- The label line `[Source i+1: filename, Page p]\n` of one context entry. -/
def sourceLabel (idx : Nat) (h : SearchHit) : Str :=
  "[Source ".toList ++ natStr (idx + 1) ++ ": ".toList ++ h.filename ++
    ", Page ".toList ++ h.page ++ "]\n".toList

/-- One rendered context entry: label line, excerpt re-truncated to 500
characters (`result['content'][:500]`), and the `...\n\n` ellipsis marker. -/
def renderEntry (idx : Nat) (h : SearchHit) : Str :=
  sourceLabel idx h ++ h.content.take 500 ++ "...\n\n".toList

/-- Python `enumerate` starting at `i`. -/
def numberFrom : Nat → List SearchHit → List (Nat × SearchHit)
  | _, [] => []
  | i, h :: t => (i, h) :: numberFrom (i + 1) t

/-- The context block assembled in `ask_question`: the fixed header followed
by the rendered entries for `relevant_content[:5]`. -/
def contextBlock (relevant : List SearchHit) : Str :=
  "Available reference materials:\n\n".toList ++
    (((numberFrom 0 (relevant.take 5)).map fun ih => renderEntry ih.1 ih.2).flatten)

/-- The fixed instruction prefix of the final user message. -/
def questionPreamble : Str :=
  ("Based ONLY on the following reference materials from uploaded PDFs, please answer this question. \nIf the answer is not in the provided materials, say so clearly.\nAlways cite your sources using the format [Source X: filename, Page Y].\n\n").toList

/-- `current_message`: instruction template, rendered context block, and the
literal question. -/
def current_message (question : Str) (relevant : List SearchHit) : Str :=
  questionPreamble ++ contextBlock relevant ++ "\n\nQuestion: ".toList ++ question

/-- A streamed server-sent event, carrying exactly one of `text`, `done`,
or `error`. -/
inductive StreamEvent where
  | text (s : Str)
  | done
  | error (msg : Str)
deriving DecidableEq

/-- Behaviour of the streaming LLM invocation, as observed by the `for event
in response` loop of `generate`: a sequence of incremental events (each
carrying usable `delta.text` or not), ending either in a normal end of stream
or in an exception raised at that point (including before the first event,
which also covers a failure of the `messages.create` call itself). -/
inductive LLMStream where
  | ends
  | fragment (hasText : Bool) (s : Str) (rest : LLMStream)
  | failure (msg : Str)

/-- The `generate()` generator of `ask_question`: re-emit every usable text
fragment in arrival order, then `done` on normal termination; any exception is
caught and converted into a single terminal `error` event. -/
def generate : LLMStream → List StreamEvent
  | LLMStream.ends => [StreamEvent.done]
  | LLMStream.failure msg => [StreamEvent.error msg]
  | LLMStream.fragment true s rest => StreamEvent.text s :: generate rest
  | LLMStream.fragment false _ rest => generate rest

/-- `true` exactly for the terminal events `done` and `error`. -/
def isTerminal : StreamEvent → Bool
  | StreamEvent.done => true
  | StreamEvent.error _ => true
  | StreamEvent.text _ => false

/-- Outcome of a `POST /ask` request: either rejected before composition and
LLM invocation (an error JSON response), or streamed (the composed message
list was sent to the LLM and the event sequence returned). -/
inductive AskOutcome where
  | rejected (msg : Str)
  | streamed (messages : List Msg) (events : List StreamEvent)
deriving DecidableEq

/-- `ask_question`: validation short-circuits (missing question, missing API
key, empty corpus), then retrieval, prompt composition (history turns copied
verbatim followed by the new user turn), and the streaming bridge. -/
def ask_question (question apiKey : Str) (history : List Msg)
    (pdf_content : List (Str × Str)) (llm : LLMStream) : AskOutcome :=
  if question.isEmpty then AskOutcome.rejected "No question provided".toList
  else if apiKey.isEmpty then AskOutcome.rejected "API key not configured".toList
  else if pdf_content.isEmpty then
    AskOutcome.rejected "No PDFs processed yet. Please contact the administrator.".toList
  else
    let relevant := search_pdfs question pdf_content
    AskOutcome.streamed
      (history ++ [{ role := "user".toList, content := current_message question relevant }])
      (generate llm)

/-- Outcome of processing one saved link inside `digest_pdfs`: invalid URL
(`extract_file_id_from_url` returned `None`), failed download
(`download_pdf_from_drive` returned `None` or empty bytes), text extraction
producing the given (possibly empty) text, or an exception caught by the
per-link `try`. -/
inductive LinkOutcome where
  | badUrl
  | downloadFailed
  | extracted (text : Str)
  | exn (msg : Str)
deriving DecidableEq

/-- One saved link entry `{name, url}` together with what processing it does. -/
structure LinkSrc where
  name : Str
  outcome : LinkOutcome
deriving DecidableEq

/-- Python `dict` assignment `d[k] = v` on an insertion-ordered association
list: replace in place if the key exists, else append. -/
def dictInsert : List (Str × Str) → Str → Str → List (Str × Str)
  | [], k, v => [(k, v)]
  | (k', v') :: rest, k, v =>
    if k' = k then (k', v) :: rest else (k', v') :: dictInsert rest k v

/-- The error message `digest_pdfs` records for a link that contributes no
corpus entry. -/
def linkError (l : LinkSrc) : Str :=
  match l.outcome with
  | LinkOutcome.badUrl => "Invalid URL for ".toList ++ l.name
  | LinkOutcome.downloadFailed =>
    "Could not download ".toList ++ l.name ++
      " - make sure sharing is set to Anyone with the link".toList
  | LinkOutcome.extracted _ => "Could not extract text from ".toList ++ l.name
  | LinkOutcome.exn m => "Error processing ".toList ++ l.name ++ ": ".toList ++ m

/-- A link contributes a corpus entry iff extraction produced non-empty text. -/
def isSuccessB (o : LinkOutcome) : Bool :=
  match o with
  | LinkOutcome.extracted t => !t.isEmpty
  | _ => false

/-- The main loop of `digest_pdfs`: starting from the fresh empty
`pdf_content = {}`, each link either inserts its extracted text under its name
(and bumps `processed`) or appends one error message. -/
def digestLoop : List LinkSrc → List (Str × Str) → Nat → List Str →
    List (Str × Str) × Nat × List Str
  | [], content, processed, errors => (content, processed, errors)
  | l :: rest, content, processed, errors =>
    match l.outcome with
    | LinkOutcome.extracted t =>
      if t.isEmpty then digestLoop rest content processed (errors ++ [linkError l])
      else digestLoop rest (dictInsert content l.name t) (processed + 1) errors
    | _ => digestLoop rest content processed (errors ++ [linkError l])

/-- `digest_pdfs`: with no saved links it returns a 400 error without touching
the store (`none`); otherwise it rebuilds the corpus from scratch, saves it
unconditionally (`save_pdf_content(pdf_content)`), and answers
`{success: True, processed, total, errors}` (`some (corpus, processed, errors)`). -/
def digest_pdfs (links : List LinkSrc) : Option (List (Str × Str) × Nat × List Str) :=
  if links.isEmpty then none else some (digestLoop links [] 0 [])

/-- The persisted corpus after a `digest_pdfs` call, given the previously
saved corpus: the early no-links error leaves the store untouched, every other
run overwrites it wholesale. -/
def saved_after (prev : List (Str × Str)) (links : List LinkSrc) : List (Str × Str) :=
  match digest_pdfs links with
  | none => prev
  | some (c, _, _) => c

/-- The page segments that `segsFrom ts n` predicts for the split of
`extractOk ts n` on `'--- Page'`: every segment carries the residual
`' k ---\n'` fragment, the page text, and (except for the last page) the
newline that preceded the next page marker. -/
def segsFrom : List Str → Nat → List Str
  | [], _ => []
  | [t], n => [segHead (n + 1) ++ t]
  | t :: ts, n => (segHead (n + 1) ++ t ++ ['\n']) :: segsFrom ts (n + 1)

/-! ### Basic facts about `begins` and `substrB` -/

theorem begins_iff (p s : Str) : begins p s = true ↔ ∃ t, s = p ++ t := by
  induction p generalizing s with
  | nil => simp [begins]
  | cons c p ih =>
    cases s with
    | nil => simp [begins]
    | cons d t =>
      simp only [begins, Bool.and_eq_true, beq_iff_eq, ih, List.cons_append]
      constructor
      · rintro ⟨rfl, u, rfl⟩
        exact ⟨u, rfl⟩
      · rintro ⟨u, h⟩
        injection h with h1 h2
        exact ⟨h1.symm, u, h2⟩

theorem begins_self_append (p t : Str) : begins p (p ++ t) = true :=
  (begins_iff _ _).2 ⟨t, rfl⟩

theorem substrB_iff (p s : Str) : substrB p s = true ↔ ∃ u v, s = u ++ p ++ v := by
  induction s with
  | nil =>
    simp only [substrB, List.isEmpty_iff]
    constructor
    · rintro rfl
      exact ⟨[], [], rfl⟩
    · rintro ⟨u, v, h⟩
      have h' := h.symm
      simp only [List.append_eq_nil] at h'
      exact h'.1.2
  | cons c t ih =>
    simp only [substrB, Bool.or_eq_true, begins_iff, ih]
    constructor
    · rintro (⟨u, h⟩ | ⟨u, v, rfl⟩)
      · exact ⟨[], u, by simpa using h⟩
      · exact ⟨c :: u, v, rfl⟩
    · rintro ⟨u, v, h⟩
      cases u with
      | nil =>
        left
        exact ⟨v, by simpa using h⟩
      | cons d u' =>
        right
        simp only [List.cons_append] at h
        injection h with h1 h2
        exact ⟨u', v, h2⟩

theorem begins_substrB (p s : Str) (h : begins p s = true) : substrB p s = true := by
  rcases (begins_iff p s).1 h with ⟨t, rfl⟩
  exact (substrB_iff _ _).2 ⟨[], t, rfl⟩

theorem substrB_tail (p : Str) (c : Char) (t : Str) (h : substrB p (c :: t) = false) :
    substrB p t = false := by
  cases hx : substrB p t with
  | false => rfl
  | true =>
    rw [substrB, hx, Bool.or_true] at h
    exact h

theorem substrB_mem (p s : Str) (h : substrB p s = true) : ∀ c ∈ p, c ∈ s := by
  rcases (substrB_iff p s).1 h with ⟨u, v, rfl⟩
  intro c hc
  simp [hc]

theorem substrB_absent (p s : Str) (c : Char) (hc : c ∈ p) (hs : c ∉ s) :
    substrB p s = false := by
  cases hb : substrB p s with
  | false => rfl
  | true => exact absurd (substrB_mem p s hb c hc) hs

theorem substrB_split_single (p u v : Str) (x : Char) (hx : x ∉ p)
    (h : substrB p (u ++ x :: v) = true) :
    substrB p u = true ∨ substrB p v = true := by
  rcases (substrB_iff _ _).1 h with ⟨a, b, hab⟩
  have hlen2 := congrArg List.length hab
  simp only [List.length_append, List.length_cons] at hlen2
  by_cases h1 : a.length + p.length ≤ u.length
  · left
    have hu : u = (a ++ p) ++ List.take (u.length - (a.length + p.length)) b := by
      conv_lhs => rw [← List.take_left u (x :: v), hab]
      rw [List.take_append_eq_append_take,
        List.take_of_length_le (by simp only [List.length_append]; omega),
        List.length_append]
    exact (substrB_iff _ _).2 ⟨a, _, hu⟩
  · by_cases h2 : u.length + 1 ≤ a.length
    · right
      have hv : v = List.drop (u.length + 1) a ++ p ++ b := by
        have h3 : List.drop (u.length + 1) (u ++ x :: v) = v := by
          rw [List.drop_append_eq_append_drop, List.drop_eq_nil_of_le (by omega)]
          simp

        conv_lhs => rw [← h3, hab]
        rw [List.append_assoc, List.drop_append_eq_append_drop,
          Nat.sub_eq_zero_of_le h2, List.drop_zero, List.append_assoc]
      exact (substrB_iff _ _).2 ⟨_, _, hv⟩
    · exfalso
      have ha : a.length ≤ u.length := by omega
      have hlt : u.length - a.length < p.length := by omega
      have hL : List.drop u.length (u ++ x :: v) = x :: v := by
        rw [List.drop_append_eq_append_drop, List.drop_eq_nil_of_le (Nat.le_refl _),
          Nat.sub_self]
        simp
      have hR : List.drop u.length ((a ++ p) ++ b) = List.drop (u.length - a.length) p ++ b := by
        rw [List.drop_append_eq_append_drop, List.drop_append_eq_append_drop,
          List.drop_eq_nil_of_le ha]
        have h0 : u.length - (a ++ p).length = 0 := by
          simp only [List.length_append]
          omega
        rw [h0, List.drop_zero]
        simp
      have hd : x :: v = List.drop (u.length - a.length) p ++ b := by
        rw [← hL, hab, hR]
      have hne : List.drop (u.length - a.length) p ≠ [] := by
        intro hnil
        have := congrArg List.length hnil
        simp [List.length_drop] at this
        omega
      cases hdd : List.drop (u.length - a.length) p with
      | nil => exact hne hdd
      | cons y ys =>
        rw [hdd] at hd
        injection hd with hxy _
        exact hx (hxy ▸ List.drop_subset _ _ (hdd ▸ List.mem_cons_self y ys))

theorem substrB_short_pad (p u pad : Str) (hlen : pad.length < p.length)
    (h : substrB p (u ++ pad) = true) : ∃ c, c ∈ p ∧ c ∈ u := by
  rcases (substrB_iff _ _).1 h with ⟨a, b, hab⟩
  have hlen2 := congrArg List.length hab
  simp only [List.length_append] at hlen2
  have hlt : a.length < u.length := by omega
  cases p with
  | nil => simp at hlen
  | cons y ys =>
    refine ⟨y, List.mem_cons_self y ys, ?_⟩
    have hu : u = a ++ List.take (u.length - a.length) ((y :: ys) ++ b) := by
      conv_lhs => rw [← List.take_left u pad, hab]
      rw [List.append_assoc, List.take_append_eq_append_take,
        List.take_of_length_le (le_of_lt hlt)]
    have hm : u.length - a.length ≠ 0 := by omega
    cases hmm : u.length - a.length with
    | zero => exact absurd hmm hm
    | succ m =>
      rw [hmm, List.cons_append, List.take_succ_cons] at hu
      rw [hu]
      simp

/-! ### Characterising `splitSeq` -/

theorem begins_cross (sep x b : Str) (hx : x ≠ [])
    (h : begins sep (x ++ sep ++ b) = true) :
    begins sep (x ++ sep.dropLast) = true := by
  by_cases hsepnil : sep = []
  · subst hsepnil
    rfl
  · obtain ⟨t, ht⟩ := (begins_iff _ _).1 h
    have hxlen : 0 < x.length := List.length_pos.2 hx
    have hslen : 0 < sep.length := List.length_pos.2 hsepnil
    by_cases hle : sep.length ≤ x.length
    · have hS : sep = List.take sep.length x := by
        have h1 := congrArg (List.take sep.length) ht
        rw [List.take_left, List.append_assoc, List.take_append_eq_append_take,
          Nat.sub_eq_zero_of_le hle, List.take_zero, List.append_nil] at h1
        exact h1.symm
      refine (begins_iff _ _).2 ⟨List.drop sep.length x ++ sep.dropLast, ?_⟩
      conv_lhs => rw [← List.take_append_drop sep.length x]
      rw [← hS, List.append_assoc]
    · have hkey : sep = x ++ List.take (sep.length - x.length) sep := by
        have h1 := congrArg (List.take sep.length) ht
        rw [List.take_left, List.append_assoc, List.take_append_eq_append_take,
          List.take_of_length_le (by omega), List.take_append_eq_append_take,
          Nat.sub_eq_zero_of_le (by omega : sep.length - x.length ≤ sep.length),
          List.take_zero, List.append_nil] at h1
        exact h1.symm
      have htake : List.take (sep.length - x.length) sep.dropLast
          = List.take (sep.length - x.length) sep := by
        rw [List.dropLast_eq_take, List.take_take]
        congr 1
        omega
      refine (begins_iff _ _).2 ⟨List.drop (sep.length - x.length) sep.dropLast, ?_⟩
      conv_lhs => rw [← List.take_append_drop (sep.length - x.length) sep.dropLast]
      rw [htake, ← List.append_assoc, ← hkey]

theorem splitGo_fuel (sep : Str) (hsep : sep ≠ []) :
    ∀ f1 f2 s acc, s.length ≤ f1 → s.length ≤ f2 →
      splitGo sep f1 s acc = splitGo sep f2 s acc := by
  intro f1
  induction f1 with
  | zero =>
    intro f2 s acc h1 _
    have hs : s = [] := by
      cases s with
      | nil => rfl
      | cons c t => simp at h1
    subst hs
    cases f2 <;> rfl
  | succ f ih =>
    intro f2 s acc h1 h2
    cases s with
    | nil => cases f2 <;> rfl
    | cons c t =>
      cases f2 with
      | zero => simp at h2
      | succ f2' =>
        have hslen : 0 < sep.length := List.length_pos.2 hsep
        simp only [splitGo]
        by_cases hb : begins sep (c :: t) = true
        · rw [if_pos hb, if_pos hb]
          have hd : ((c :: t).drop sep.length).length ≤ f := by
            simp only [List.length_drop, List.length_cons]
            simp only [List.length_cons] at h1
            omega
          have hd2 : ((c :: t).drop sep.length).length ≤ f2' := by
            simp only [List.length_drop, List.length_cons]
            simp only [List.length_cons] at h2
            omega
          rw [ih f2' _ [] hd hd2]
        · rw [if_neg hb, if_neg hb]
          have ht1 : t.length ≤ f := by
            simp only [List.length_cons] at h1
            omega
          have ht2 : t.length ≤ f2' := by
            simp only [List.length_cons] at h2
            omega
          rw [ih f2' t (c :: acc) ht1 ht2]

theorem splitGo_no_occ (sep : Str) :
    ∀ s fuel acc, s.length ≤ fuel → substrB sep s = false →
      splitGo sep fuel s acc = [acc.reverse ++ s] := by
  intro s
  induction s with
  | nil =>
    intro fuel acc _ _
    cases fuel <;> simp [splitGo]
  | cons c t ih =>
    intro fuel acc hlen hno
    cases fuel with
    | zero => simp at hlen
    | succ f =>
      have hparts : begins sep (c :: t) = false ∧ substrB sep t = false := by
        rw [substrB, Bool.or_eq_false_iff] at hno
        exact hno
      simp only [splitGo]
      rw [if_neg (by rw [hparts.1]; exact Bool.false_ne_true)]
      rw [ih f (c :: acc) (by simp only [List.length_cons] at hlen; omega) hparts.2]
      simp

theorem splitGo_occ (sep b : Str) (hsep : sep ≠ []) :
    ∀ a fuel acc, substrB sep (a ++ sep.dropLast) = false →
      (a ++ sep ++ b).length ≤ fuel →
      splitGo sep fuel (a ++ sep ++ b) acc
        = (acc.reverse ++ a) :: splitGo sep b.length b [] := by
  intro a
  induction a with
  | nil =>
    intro fuel acc _ hlen
    obtain ⟨sc, sep', hsc⟩ := List.exists_cons_of_ne_nil hsep
    subst hsc
    simp only [List.nil_append] at hlen ⊢
    cases fuel with
    | zero =>
      exfalso
      simp only [List.length_append, List.length_cons] at hlen
      omega
    | succ f =>
      have hba : begins (sc :: sep') (sc :: (sep' ++ b)) = true := by
        have h0 := begins_self_append (sc :: sep') b
        rw [List.cons_append] at h0
        exact h0
      have hdrop : (sc :: (sep' ++ b)).drop (sc :: sep').length = b := by
        rw [← List.cons_append]
        exact List.drop_left _ _
      have hblen : b.length ≤ f := by
        simp only [List.length_append, List.length_cons] at hlen
        omega
      rw [List.cons_append]
      simp only [splitGo]
      rw [if_pos hba, hdrop, splitGo_fuel _ hsep f b.length b [] hblen (Nat.le_refl _)]
      simp
  | cons c a' ih =>
    intro fuel acc hno hlen
    have hshape : (c :: a') ++ sep ++ b = c :: (a' ++ sep ++ b) := by simp
    cases fuel with
    | zero =>
      exfalso
      rw [hshape] at hlen
      simp only [List.length_cons] at hlen
      omega
    | succ f =>
      rw [hshape]
      simp only [splitGo]
      have hbf : ¬ begins sep (c :: (a' ++ sep ++ b)) = true := by
        intro hbb
        have hcr := begins_cross sep (c :: a') b (by simp) (by
          rw [hshape]
          exact hbb)
        have hsub := begins_substrB _ _ hcr
        rw [hno] at hsub
        exact Bool.noConfusion hsub
      rw [if_neg hbf]
      have hno' : substrB sep (a' ++ sep.dropLast) = false := by
        have hsh2 : (c :: a') ++ sep.dropLast = c :: (a' ++ sep.dropLast) := by simp
        rw [hsh2] at hno
        exact substrB_tail _ _ _ hno
      have hlen' : (a' ++ sep ++ b).length ≤ f := by
        rw [hshape] at hlen
        simp only [List.length_cons] at hlen
        omega
      rw [ih f (c :: acc) hno' hlen']
      simp

theorem splitSeq_no_occ (sep s : Str) (h : substrB sep s = false) : splitSeq sep s = [s] := by
  have hsep : sep ≠ [] := by
    rintro rfl
    cases s <;> simp [substrB, begins] at h
  rw [splitSeq, if_neg (by simp [List.isEmpty_iff, hsep])]
  rw [splitGo_no_occ sep s s.length [] (Nat.le_refl _) h]
  simp

theorem splitSeq_occ (sep a b : Str) (hno : substrB sep (a ++ sep.dropLast) = false) :
    splitSeq sep (a ++ sep ++ b) = a :: splitSeq sep b := by
  have hsep : sep ≠ [] := by
    rintro rfl
    rw [show (a ++ (([] : Str)).dropLast) = a by simp] at hno
    cases a <;> simp [substrB, begins] at hno
  rw [splitSeq, splitSeq, if_neg (by simp [List.isEmpty_iff, hsep]),
    if_neg (by simp [List.isEmpty_iff, hsep])]
  rw [splitGo_occ sep b hsep a (a ++ sep ++ b).length [] hno (Nat.le_refl _)]
  simp

/-! ### Digits, stripping, and page labels -/

theorem natStrAux_mem : ∀ fuel n acc c, c ∈ natStrAux fuel n acc →
    (∃ d, d < 10 ∧ c = digitChar d) ∨ c ∈ acc := by
  intro fuel
  induction fuel with
  | zero =>
    intro n acc c h
    simp only [natStrAux] at h
    exact Or.inr h
  | succ f ih =>
    intro n acc c h
    simp only [natStrAux] at h
    by_cases hn : n < 10
    · rw [if_pos hn] at h
      rcases List.mem_cons.1 h with rfl | h'
      · exact Or.inl ⟨n, hn, rfl⟩
      · exact Or.inr h'
    · rw [if_neg hn] at h
      rcases ih _ _ _ h with h' | h'
      · exact Or.inl h'
      · rcases List.mem_cons.1 h' with rfl | h''
        · exact Or.inl ⟨n % 10, Nat.mod_lt _ (by norm_num), rfl⟩
        · exact Or.inr h''

theorem digitChar_digit (d : Nat) (hd : d < 10) : digitChar d ∈ "0123456789".toList := by
  interval_cases d <;> decide

theorem natStr_digits (n : Nat) : ∀ c ∈ natStr n, c ∈ "0123456789".toList := by
  intro c hc
  rcases natStrAux_mem _ _ _ _ hc with ⟨d, hd, rfl⟩ | h
  · exact digitChar_digit d hd
  · simp at h

theorem natStrAux_len : ∀ fuel n acc, acc.length ≤ (natStrAux fuel n acc).length := by
  intro fuel
  induction fuel with
  | zero => intro n acc; simp [natStrAux]
  | succ f ih =>
    intro n acc
    simp only [natStrAux]
    by_cases hn : n < 10
    · rw [if_pos hn]; simp
    · rw [if_neg hn]
      calc acc.length ≤ (digitChar (n % 10) :: acc).length := by simp
        _ ≤ _ := ih _ _

theorem natStr_ne_nil (n : Nat) : natStr n ≠ [] := by
  unfold natStr
  simp only [natStrAux]
  by_cases hn : n < 10
  · rw [if_pos hn]; simp
  · rw [if_neg hn]
    intro h
    have := natStrAux_len n (n / 10) [digitChar (n % 10)]
    rw [h] at this
    simp at this

theorem digits_not_space : ∀ c ∈ "0123456789".toList, pyIsSpace c = false := by decide

theorem natStr_not_space (n : Nat) : ∀ c ∈ natStr n, pyIsSpace c = false :=
  fun c hc => digits_not_space c (natStr_digits n c hc)

theorem dropWhile_no_space (l : Str) (h : ∀ c ∈ l, pyIsSpace c = false) :
    l.dropWhile pyIsSpace = l := by
  cases l with
  | nil => rfl
  | cons c t =>
    rw [List.dropWhile_cons, h c (List.mem_cons_self c t)]
    simp

theorem pyStrip_pad (m : Str) (hne : m ≠ []) (h : ∀ c ∈ m, pyIsSpace c = false) :
    pyStrip (' ' :: (m ++ [' '])) = m := by
  obtain ⟨c, m', rfl⟩ := List.exists_cons_of_ne_nil hne
  have hsp : pyIsSpace ' ' = true := by decide
  have hstep1 : (' ' :: (c :: m' ++ [' '])).dropWhile pyIsSpace = c :: (m' ++ [' ']) := by
    rw [List.dropWhile_cons, if_pos hsp, List.cons_append, List.dropWhile_cons,
      h c (List.mem_cons_self c m')]
    simp
  unfold pyStrip
  rw [hstep1]
  have hrev : (c :: (m' ++ [' '])).reverse = ' ' :: (c :: m').reverse := by
    rw [← List.cons_append, List.reverse_append]
    rfl
  rw [hrev, List.dropWhile_cons, if_pos hsp,
    dropWhile_no_space _ (fun x hx => h x (List.mem_reverse.1 hx)), List.reverse_reverse]

theorem pageLabel_segHead (k : Nat) (X : Str) : pageLabel (segHead k ++ X) = natStr k := by
  have hshape : segHead k ++ X = (' ' :: (natStr k ++ [' '])) ++ dashes3 ++ ('\n' :: X) := by
    have hlit : " ---\n".toList = [' ', '-', '-', '-', '\n'] := by decide
    have hd3 : dashes3 = ['-', '-', '-'] := by decide
    simp [segHead, hlit, hd3]
  have hdashmem : ∀ c ∈ dashes3, c = '-' := by decide
  have hnod : substrB dashes3 ((' ' :: (natStr k ++ [' '])) ++ dashes3.dropLast) = false := by
    cases hx : substrB dashes3 ((' ' :: (natStr k ++ [' '])) ++ dashes3.dropLast) with
    | false => rfl
    | true =>
      exfalso
      obtain ⟨c, hcp, hcu⟩ := substrB_short_pad dashes3 _ dashes3.dropLast (by decide) hx
      have hc : c = '-' := hdashmem c hcp
      subst hc
      rcases List.mem_cons.1 hcu with h1 | h2
      · exact absurd h1 (by decide)
      · rcases List.mem_append.1 h2 with h3 | h4
        · exact absurd (natStr_digits k '-' h3) (by decide)
        · exact absurd h4 (by decide)
  have hsub : substrB dashes3 (segHead k ++ X) = true := by
    rw [hshape]
    exact (substrB_iff _ _).2 ⟨' ' :: (natStr k ++ [' ']), '\n' :: X, rfl⟩
  have hsplit : splitSeq dashes3 (segHead k ++ X)
      = (' ' :: (natStr k ++ [' '])) :: splitSeq dashes3 ('\n' :: X) := by
    rw [hshape]
    exact splitSeq_occ dashes3 _ _ hnod
  rw [pageLabel, if_pos hsub, hsplit]
  simp only [List.headD]
  exact pyStrip_pad (natStr k) (natStr_ne_nil k) (natStr_not_space k)

/-! ### Occurrence-freeness of the page marker around segment heads -/

theorem pageMarker_absent_span (k : Nat) :
    substrB pageMarker (' ' :: (natStr k ++ [' ', '-', '-', '-'])) = false := by
  refine substrB_absent _ _ 'P' (by decide) ?_
  intro h
  rcases List.mem_cons.1 h with h1 | h2
  · exact absurd h1 (by decide)
  · rcases List.mem_append.1 h2 with h3 | h4
    · exact absurd (natStr_digits k 'P' h3) (by decide)
    · exact absurd h4 (by decide)

theorem segHead_shape (k : Nat) (X : Str) :
    segHead k ++ X = (' ' :: (natStr k ++ [' ', '-', '-', '-'])) ++ '\n' :: X := by
  have hlit : " ---\n".toList = [' ', '-', '-', '-', '\n'] := by decide
  simp [segHead, hlit]

theorem noSep_segHead (k : Nat) (t : Str) (ht : substrB pageMarker t = false) :
    substrB pageMarker (segHead k ++ t) = false := by
  rw [segHead_shape]
  cases hx : substrB pageMarker ((' ' :: (natStr k ++ [' ', '-', '-', '-'])) ++ '\n' :: t) with
  | false => rfl
  | true =>
    exfalso
    rcases substrB_split_single _ _ _ '\n' (by decide) hx with h1 | h1
    · rw [pageMarker_absent_span k] at h1
      exact Bool.noConfusion h1
    · rw [ht] at h1
      exact Bool.noConfusion h1

theorem noSep_chunk (k : Nat) (t : Str) (ht : substrB pageMarker t = false) :
    substrB pageMarker ((segHead k ++ t ++ ['\n']) ++ pageMarker.dropLast) = false := by
  have hshape : (segHead k ++ t ++ ['\n']) ++ pageMarker.dropLast
      = (' ' :: (natStr k ++ [' ', '-', '-', '-'])) ++ '\n' :: (t ++ '\n' :: pageMarker.dropLast) := by
    have hlit : " ---\n".toList = [' ', '-', '-', '-', '\n'] := by decide
    simp [segHead, hlit]
  rw [hshape]
  cases hx : substrB pageMarker ((' ' :: (natStr k ++ [' ', '-', '-', '-'])) ++
      '\n' :: (t ++ '\n' :: pageMarker.dropLast)) with
  | false => rfl
  | true =>
    exfalso
    rcases substrB_split_single _ _ _ '\n' (by decide) hx with h1 | h1
    · rw [pageMarker_absent_span k] at h1
      exact Bool.noConfusion h1
    · rcases substrB_split_single _ _ _ '\n' (by decide) h1 with h2 | h2
      · rw [ht] at h2
        exact Bool.noConfusion h2
      · rw [(by decide : substrB pageMarker pageMarker.dropLast = false)] at h2
        exact Bool.noConfusion h2

/-! ### The split structure of extractor output -/

theorem pageTag_eq (k : Nat) : pageTag k = '\n' :: (pageMarker ++ segHead k) := by
  have hlit : "\n--- Page ".toList = '\n' :: (pageMarker ++ [' ']) := by decide
  have hpm : pageMarker = ['-', '-', '-', ' ', 'P', 'a', 'g', 'e'] := by decide
  simp [pageTag, segHead, hlit, hpm]

theorem extractOk_cons (t : Str) (ts : List Str) (n : Nat) :
    extractOk (t :: ts) n
      = '\n' :: (pageMarker ++ (segHead (n + 1) ++ (t ++ extractOk ts (n + 1)))) := by
  rw [extractOk, pageTag_eq]
  simp [List.append_assoc]

theorem split_mid (ts : List Str) :
    ∀ n t, substrB pageMarker t = false →
      (∀ u ∈ ts, substrB pageMarker u = false) →
      splitSeq pageMarker (segHead (n + 1) ++ (t ++ extractOk ts (n + 1)))
        = segsFrom (t :: ts) n := by
  induction ts with
  | nil =>
    intro n t ht _
    rw [extractOk]
    rw [List.append_nil]
    rw [splitSeq_no_occ _ _ (noSep_segHead (n + 1) t ht)]
    rfl
  | cons u ts' ih =>
    intro n t ht hall
    have hshape : segHead (n + 1) ++ (t ++ extractOk (u :: ts') (n + 1))
        = (segHead (n + 1) ++ t ++ ['\n']) ++ pageMarker ++
            (segHead (n + 2) ++ (u ++ extractOk ts' (n + 2))) := by
      rw [extractOk_cons]
      simp [List.append_assoc]
    rw [hshape, splitSeq_occ _ _ _ (noSep_chunk (n + 1) t ht)]
    rw [ih (n + 1) u (hall u (List.mem_cons_self u ts'))
      (fun x hx => hall x (List.mem_cons_of_mem u hx))]
    rfl

theorem split_extract (ts : List Str) (hne : ts ≠ [])
    (hall : ∀ t ∈ ts, substrB pageMarker t = false) :
    splitSeq pageMarker (extractOk ts 0) = ['\n'] :: segsFrom ts 0 := by
  obtain ⟨t, ts', rfl⟩ := List.exists_cons_of_ne_nil hne
  rw [extractOk_cons]
  have hshape : '\n' :: (pageMarker ++ (segHead 1 ++ (t ++ extractOk ts' 1)))
      = ['\n'] ++ pageMarker ++ (segHead 1 ++ (t ++ extractOk ts' 1)) := by
    simp
  rw [hshape, splitSeq_occ _ _ _ (by decide)]
  rw [split_mid ts' 0 t (hall t (List.mem_cons_self t ts'))
    (fun x hx => hall x (List.mem_cons_of_mem t hx))]

theorem segsFrom_mem (ts : List Str) :
    ∀ n seg, seg ∈ segsFrom ts n →
      ∃ k t trail, t ∈ ts ∧ seg = segHead k ++ (t ++ trail) ∧
        (trail = [] ∨ trail = ['\n']) := by
  induction ts with
  | nil =>
    intro n seg h
    simp [segsFrom] at h
  | cons t ts' ih =>
    intro n seg h
    cases ts' with
    | nil =>
      have heq : segsFrom [t] n = [segHead (n + 1) ++ t] := rfl
      rw [heq] at h
      rcases List.mem_cons.1 h with rfl | h'
      · exact ⟨n + 1, t, [], List.mem_cons_self t [], by simp, Or.inl rfl⟩
      · simp at h'
    | cons u ts'' =>
      have heq : segsFrom (t :: u :: ts'') n
          = (segHead (n + 1) ++ t ++ ['\n']) :: segsFrom (u :: ts'') (n + 1) := rfl
      rw [heq] at h
      rcases List.mem_cons.1 h with rfl | h'
      · exact ⟨n + 1, t, ['\n'], List.mem_cons_self t _, by simp, Or.inr rfl⟩
      · obtain ⟨k, t', trail, hmem, hseg, htrail⟩ := ih (n + 1) seg h'
        exact ⟨k, t', trail, List.mem_cons_of_mem t hmem, hseg, htrail⟩

theorem extractLoop_ok (ts : List Str) : ∀ n, extractLoop (ts.map PageRead.ok) n = extractOk ts n := by
  induction ts with
  | nil => intro n; rfl
  | cons t ts' ih =>
    intro n
    simp only [List.map_cons, extractLoop, extractOk]
    rw [ih (n + 1)]

theorem extractLoop_failed (ts : List Str) :
    ∀ n rest, extractLoop (ts.map PageRead.ok ++ PageRead.failed :: rest) n = extractOk ts n := by
  induction ts with
  | nil => intro n rest; rfl
  | cons t ts' ih =>
    intro n rest
    simp only [List.map_cons, List.cons_append, extractLoop, extractOk, List.append_eq]
    rw [ih (n + 1) rest]

/-! ### Retrieval, composition, streaming, and ingestion lemmas -/

theorem mem_search_iff (q : Str) (c : List (Str × Str)) (h : SearchHit) :
    h ∈ search_pdfs q c ↔ ∃ fc, fc ∈ c ∧ ∃ page, page ∈ splitSeq pageMarker fc.2 ∧
      substrB (pyLower q) (pyLower page) = true ∧
      h = { filename := fc.1, page := pageLabel page, content := page.take 1000 } := by
  simp only [search_pdfs, List.mem_flatMap, List.mem_map, List.mem_filter]
  constructor
  · rintro ⟨fc, hfc, page, ⟨hpage, hsub⟩, rfl⟩
    exact ⟨fc, hfc, page, hpage, hsub, rfl⟩
  · rintro ⟨fc, hfc, page, hpage, hsub, rfl⟩
    exact ⟨fc, hfc, page, ⟨hpage, hsub⟩, rfl⟩

theorem numberFrom_length : ∀ i l, (numberFrom i l).length = l.length := by
  intro i l
  induction l generalizing i with
  | nil => rfl
  | cons h t ih => simp [numberFrom, ih]

theorem isEmpty_false_of_ne {α : Type} (l : List α) (h : l ≠ []) : l.isEmpty = false := by
  cases l with
  | nil => exact absurd rfl h
  | cons c t => rfl

theorem generate_shape (s : LLMStream) :
    ∃ pre last, generate s = pre ++ [last] ∧ isTerminal last = true ∧
      ∀ e ∈ pre, isTerminal e = false := by
  induction s with
  | ends => exact ⟨[], StreamEvent.done, rfl, rfl, by simp⟩
  | failure m => exact ⟨[], StreamEvent.error m, rfl, rfl, by simp⟩
  | fragment hasText frag rest ih =>
    obtain ⟨pre, last, h1, h2, h3⟩ := ih
    cases hasText with
    | false => exact ⟨pre, last, by simpa [generate] using h1, h2, h3⟩
    | true =>
      refine ⟨StreamEvent.text frag :: pre, last, ?_, h2, ?_⟩
      · simp [generate, h1]
      · intro e he
        rcases List.mem_cons.1 he with rfl | he'
        · rfl
        · exact h3 e he'

theorem dictInsert_val (d : List (Str × Str)) (k v : Str) (Q : Str → Prop)
    (hd : ∀ p ∈ d, Q p.2) (hv : Q v) : ∀ p ∈ dictInsert d k v, Q p.2 := by
  induction d with
  | nil =>
    intro p hp
    rcases List.mem_cons.1 hp with rfl | hp'
    · exact hv
    · simp at hp'
  | cons kv rest ih =>
    intro p hp
    obtain ⟨k', v'⟩ := kv
    rw [dictInsert] at hp
    by_cases hk : k' = k
    · rw [if_pos hk] at hp
      rcases List.mem_cons.1 hp with rfl | hp'
      · exact hv
      · exact hd p (List.mem_cons_of_mem _ hp')
    · rw [if_neg hk] at hp
      rcases List.mem_cons.1 hp with rfl | hp'
      · exact hd (k', v') (List.mem_cons_self _ _)
      · exact ih (fun p hp => hd p (List.mem_cons_of_mem _ hp)) p hp'

theorem dictInsert_key (d : List (Str × Str)) (k v n : Str) :
    (∃ t, (n, t) ∈ dictInsert d k v) ↔ (∃ t, (n, t) ∈ d) ∨ n = k := by
  induction d with
  | nil =>
    constructor
    · rintro ⟨t, ht⟩
      rcases List.mem_cons.1 ht with heq | h'
      · rw [Prod.mk.injEq] at heq
        exact Or.inr heq.1
      · simp at h'
    · rintro (⟨t, ht⟩ | rfl)
      · simp at ht
      · exact ⟨v, List.mem_cons_self _ _⟩
  | cons kv rest ih =>
    obtain ⟨k', v'⟩ := kv
    rw [dictInsert]
    by_cases hk : k' = k
    · subst hk
      rw [if_pos rfl]
      simp only [List.mem_cons, Prod.mk.injEq]
      constructor
      · rintro ⟨t, ⟨rfl, rfl⟩ | h⟩
        · exact Or.inr rfl
        · exact Or.inl ⟨t, Or.inr h⟩
      · rintro (⟨t, ⟨rfl, rfl⟩ | h⟩ | rfl)
        · exact ⟨v, Or.inl ⟨rfl, rfl⟩⟩
        · exact ⟨t, Or.inr h⟩
        · exact ⟨v, Or.inl ⟨rfl, rfl⟩⟩
    · rw [if_neg hk]
      simp only [List.mem_cons, Prod.mk.injEq]
      constructor
      · rintro ⟨t, ⟨rfl, rfl⟩ | h⟩
        · exact Or.inl ⟨t, Or.inl ⟨rfl, rfl⟩⟩
        · rcases ih.1 ⟨t, h⟩ with ⟨t', h'⟩ | h'
          · exact Or.inl ⟨t', Or.inr h'⟩
          · exact Or.inr h'
      · rintro (⟨t, ⟨rfl, rfl⟩ | h⟩ | rfl)
        · exact ⟨t, Or.inl ⟨rfl, rfl⟩⟩
        · rcases ih.2 (Or.inl ⟨t, h⟩) with ⟨t', h'⟩
          exact ⟨t', Or.inr h'⟩
        · rcases ih.2 (Or.inr rfl) with ⟨t', h'⟩
          exact ⟨t', Or.inr h'⟩

theorem digestLoop_cons_extracted (l : LinkSrc) (rest : List LinkSrc)
    (acc : List (Str × Str)) (pr : Nat) (er : List Str) (t : Str)
    (ho : l.outcome = LinkOutcome.extracted t) :
    digestLoop (l :: rest) acc pr er =
      if t.isEmpty then digestLoop rest acc pr (er ++ [linkError l])
      else digestLoop rest (dictInsert acc l.name t) (pr + 1) er := by
  rw [digestLoop, ho]

theorem digestLoop_cons_fail (l : LinkSrc) (rest : List LinkSrc)
    (acc : List (Str × Str)) (pr : Nat) (er : List Str)
    (ho : ∀ t, l.outcome ≠ LinkOutcome.extracted t) :
    digestLoop (l :: rest) acc pr er = digestLoop rest acc pr (er ++ [linkError l]) := by
  rw [digestLoop]
  cases hoc : l.outcome with
  | extracted t => exact absurd hoc (ho t)
  | badUrl => rfl
  | downloadFailed => rfl
  | exn m => rfl

theorem digestLoop_val (links : List LinkSrc) :
    ∀ acc pr er, (∀ p ∈ acc, p.2 ≠ ([] : Str)) →
      ∀ p ∈ (digestLoop links acc pr er).1, p.2 ≠ ([] : Str) := by
  induction links with
  | nil =>
    intro acc pr er hacc p hp
    exact hacc p hp
  | cons l rest ih =>
    intro acc pr er hacc p hp
    cases ho : l.outcome with
    | extracted t =>
      rw [digestLoop_cons_extracted l rest acc pr er t ho] at hp
      by_cases hte : t.isEmpty = true
      · rw [if_pos hte] at hp
        exact ih acc pr _ hacc p hp
      · rw [if_neg hte] at hp
        refine ih _ _ _ ?_ p hp
        exact dictInsert_val acc l.name t (fun s => s ≠ ([] : Str)) hacc (by
          intro hnil
          exact hte (by rw [hnil]; rfl))
    | badUrl =>
      rw [digestLoop_cons_fail l rest acc pr er (by simp [ho])] at hp
      exact ih acc pr _ hacc p hp
    | downloadFailed =>
      rw [digestLoop_cons_fail l rest acc pr er (by simp [ho])] at hp
      exact ih acc pr _ hacc p hp
    | exn m =>
      rw [digestLoop_cons_fail l rest acc pr er (by simp [ho])] at hp
      exact ih acc pr _ hacc p hp

theorem digestLoop_key (links : List LinkSrc) :
    ∀ acc pr er n, (∃ t, (n, t) ∈ (digestLoop links acc pr er).1) ↔
      (∃ t, (n, t) ∈ acc) ∨ ∃ l, l ∈ links ∧ l.name = n ∧ isSuccessB l.outcome = true := by
  induction links with
  | nil =>
    intro acc pr er n
    simp [digestLoop]
  | cons l rest ih =>
    intro acc pr er n
    cases ho : l.outcome with
    | extracted t =>
      rw [digestLoop_cons_extracted l rest acc pr er t ho]
      by_cases hte : t.isEmpty = true
      · rw [if_pos hte, ih]
        constructor
        · rintro (h | ⟨l', hl', hn, hs⟩)
          · exact Or.inl h
          · exact Or.inr ⟨l', List.mem_cons_of_mem _ hl', hn, hs⟩
        · rintro (h | ⟨l', hl', hn, hs⟩)
          · exact Or.inl h
          · rcases List.mem_cons.1 hl' with rfl | hl''
            · rw [ho] at hs
              simp [isSuccessB, hte] at hs
            · exact Or.inr ⟨l', hl'', hn, hs⟩
      · rw [if_neg hte, ih]
        constructor
        · rintro (h | ⟨l', hl', hn, hs⟩)
          · rcases (dictInsert_key acc l.name t n).1 h with h' | h'
            · exact Or.inl h'
            · refine Or.inr ⟨l, List.mem_cons_self _ _, h'.symm, ?_⟩
              simp [isSuccessB, ho, hte]
          · exact Or.inr ⟨l', List.mem_cons_of_mem _ hl', hn, hs⟩
        · rintro (h | ⟨l', hl', hn, hs⟩)
          · exact Or.inl ((dictInsert_key acc l.name t n).2 (Or.inl h))
          · rcases List.mem_cons.1 hl' with rfl | hl''
            · exact Or.inl ((dictInsert_key acc _ t n).2 (Or.inr hn.symm))
            · exact Or.inr ⟨l', hl'', hn, hs⟩
    | badUrl =>
      rw [digestLoop_cons_fail l rest acc pr er (by simp [ho]), ih]
      constructor
      · rintro (h | ⟨l', hl', hn, hs⟩)
        · exact Or.inl h
        · exact Or.inr ⟨l', List.mem_cons_of_mem _ hl', hn, hs⟩
      · rintro (h | ⟨l', hl', hn, hs⟩)
        · exact Or.inl h
        · rcases List.mem_cons.1 hl' with rfl | hl''
          · rw [ho] at hs
            simp [isSuccessB] at hs
          · exact Or.inr ⟨l', hl'', hn, hs⟩
    | downloadFailed =>
      rw [digestLoop_cons_fail l rest acc pr er (by simp [ho]), ih]
      constructor
      · rintro (h | ⟨l', hl', hn, hs⟩)
        · exact Or.inl h
        · exact Or.inr ⟨l', List.mem_cons_of_mem _ hl', hn, hs⟩
      · rintro (h | ⟨l', hl', hn, hs⟩)
        · exact Or.inl h
        · rcases List.mem_cons.1 hl' with rfl | hl''
          · rw [ho] at hs
            simp [isSuccessB] at hs
          · exact Or.inr ⟨l', hl'', hn, hs⟩
    | exn m =>
      rw [digestLoop_cons_fail l rest acc pr er (by simp [ho]), ih]
      constructor
      · rintro (h | ⟨l', hl', hn, hs⟩)
        · exact Or.inl h
        · exact Or.inr ⟨l', List.mem_cons_of_mem _ hl', hn, hs⟩
      · rintro (h | ⟨l', hl', hn, hs⟩)
        · exact Or.inl h
        · rcases List.mem_cons.1 hl' with rfl | hl''
          · rw [ho] at hs
            simp [isSuccessB] at hs
          · exact Or.inr ⟨l', hl'', hn, hs⟩

theorem digestLoop_allfail (links : List LinkSrc) :
    ∀ acc pr er, (∀ l ∈ links, isSuccessB l.outcome = false) →
      digestLoop links acc pr er = (acc, pr, er ++ links.map linkError) := by
  induction links with
  | nil =>
    intro acc pr er _
    simp [digestLoop]
  | cons l rest ih =>
    intro acc pr er hall
    have hl := hall l (List.mem_cons_self _ _)
    have hrest : ∀ l' ∈ rest, isSuccessB l'.outcome = false :=
      fun l' hl' => hall l' (List.mem_cons_of_mem _ hl')
    cases ho : l.outcome with
    | extracted t =>
      have hte : t.isEmpty = true := by
        rw [ho] at hl
        simpa [isSuccessB] using hl
      rw [digestLoop_cons_extracted l rest acc pr er t ho, if_pos hte, ih _ _ _ hrest]
      simp
    | badUrl =>
      rw [digestLoop_cons_fail l rest acc pr er (by simp [ho]), ih _ _ _ hrest]
      simp
    | downloadFailed =>
      rw [digestLoop_cons_fail l rest acc pr er (by simp [ho]), ih _ _ _ hrest]
      simp
    | exn m =>
      rw [digestLoop_cons_fail l rest acc pr er (by simp [ho]), ih _ _ _ hrest]
      simp

/-! ### The claims -/

/-- C1: for every corpus and query, `search_pdfs` returns a hit for a page
segment iff the lower-cased query is a literal substring of the lower-cased
segment text: every returned `SearchHit` arises from a segment satisfying the
substring condition (and carries that segment's label and first 1000
characters), and every segment satisfying the condition produces a hit. -/
theorem search_hit_iff_substring (q : Str) (c : List (Str × Str)) :
    (∀ h ∈ search_pdfs q c, ∃ fc, fc ∈ c ∧ ∃ page, page ∈ splitSeq pageMarker fc.2 ∧
      substrB (pyLower q) (pyLower page) = true ∧
      h = { filename := fc.1, page := pageLabel page, content := page.take 1000 })
    ∧ (∀ fc ∈ c, ∀ page ∈ splitSeq pageMarker fc.2,
      substrB (pyLower q) (pyLower page) = true →
      ({ filename := fc.1, page := pageLabel page, content := page.take 1000 } : SearchHit)
        ∈ search_pdfs q c) := by
  constructor
  · intro h hmem
    exact (mem_search_iff q c h).1 hmem
  · intro fc hfc page hpage hsub
    exact (mem_search_iff q c _).2 ⟨fc, hfc, page, hpage, hsub, rfl⟩

/-- Witness for C1 at a concrete corpus and query. -/
theorem search_hit_iff_substring_witness :
    ({ filename := "doc1".toList,
       page := pageLabel " 1 ---\nAspirin reduces fever.\n".toList,
       content := (" 1 ---\nAspirin reduces fever.\n".toList).take 1000 } : SearchHit) ∈
      search_pdfs "fever".toList
        [("doc1".toList,
          "--- Page 1 ---\nAspirin reduces fever.\n--- Page 2 ---\nIbuprofen reduces inflammation.".toList)] :=
  (search_hit_iff_substring "fever".toList _).2
    ("doc1".toList,
      "--- Page 1 ---\nAspirin reduces fever.\n--- Page 2 ---\nIbuprofen reduces inflammation.".toList)
    (by decide) " 1 ---\nAspirin reduces fever.\n".toList (by decide) (by decide)

/-- C2: for every LLM behaviour, the event sequence emitted by `generate`
consists of non-terminal `text` events followed by exactly one terminal event
(`done` or `error`), which is last; and when the LLM raises after two text
fragments, the emitted sequence is exactly text, text, error with no `done`. -/
theorem stream_bridge_terminal :
    (∀ s : LLMStream, ∃ pre last, generate s = pre ++ [last] ∧ isTerminal last = true ∧
      ∀ e ∈ pre, isTerminal e = false)
    ∧ (∀ a b m : Str,
      generate (LLMStream.fragment true a (LLMStream.fragment true b (LLMStream.failure m)))
        = [StreamEvent.text a, StreamEvent.text b, StreamEvent.error m]) :=
  ⟨generate_shape, fun _ _ _ => rfl⟩

/-- Witness for C2 at a concrete two-fragment failing stream. -/
theorem stream_bridge_terminal_witness :
    generate (LLMStream.fragment true "a".toList
        (LLMStream.fragment true "b".toList (LLMStream.failure "boom".toList)))
      = [StreamEvent.text "a".toList, StreamEvent.text "b".toList,
         StreamEvent.error "boom".toList] :=
  stream_bridge_terminal.2 "a".toList "b".toList "boom".toList

/-- C3 counterexample: when page 2 of a three-page document fails, the
extractor returns only the page-1 text; the output has no tagged entry for
pages 2 or 3, so extraction of the remaining pages is aborted rather than
continued with an empty string. -/
theorem extract_page_failure_counterexample :
    extract_text_from_pdf_bytes
        (some [PageRead.ok "A".toList, PageRead.failed, PageRead.ok "C".toList])
      = "\n--- Page 1 ---\nA".toList
    ∧ substrB "--- Page 2".toList
        (extract_text_from_pdf_bytes
          (some [PageRead.ok "A".toList, PageRead.failed, PageRead.ok "C".toList])) = false
    ∧ substrB "--- Page 3".toList
        (extract_text_from_pdf_bytes
          (some [PageRead.ok "A".toList, PageRead.failed, PageRead.ok "C".toList])) = false := by
  refine ⟨by decide, by decide, by decide⟩

/-- C3 amended: if extraction fails on a page, the extractor stops there and
returns exactly the tagged text of the pages before the failing one (the
failing page and all later pages are omitted, not replaced by empty strings);
with no failure every page is tagged in order, and a whole-document parse
failure yields empty text. -/
theorem extract_page_failure_prefix (ts : List Str) (rest : List PageRead) :
    extract_text_from_pdf_bytes (some (ts.map PageRead.ok ++ PageRead.failed :: rest))
      = extractOk ts 0
    ∧ extract_text_from_pdf_bytes (some (ts.map PageRead.ok)) = extractOk ts 0
    ∧ extract_text_from_pdf_bytes none = [] :=
  ⟨extractLoop_failed ts 0 rest, extractLoop_ok ts 0, rfl⟩

/-- C4: whenever `digest_pdfs` actually runs (saves a corpus), every stored
document maps to non-empty text, and a name all of whose links failed is not
present in the stored corpus. -/
theorem corpus_entries_nonempty (links : List LinkSrc) (corpus : List (Str × Str))
    (processed : Nat) (errors : List Str)
    (hrun : digest_pdfs links = some (corpus, processed, errors)) :
    (∀ p ∈ corpus, p.2 ≠ ([] : Str))
    ∧ ∀ n : Str, (∀ l ∈ links, l.name = n → isSuccessB l.outcome = false) →
        ¬ ∃ t, (n, t) ∈ corpus := by
  have hcl : corpus = (digestLoop links [] 0 []).1 := by
    rw [digest_pdfs] at hrun
    by_cases hl : links.isEmpty = true
    · rw [if_pos hl] at hrun
      exact Option.noConfusion hrun
    · rw [if_neg hl] at hrun
      have heq := Option.some.inj hrun
      have h2 := congrArg (fun x => x.1) heq
      simpa using h2.symm
  constructor
  · rw [hcl]
    exact digestLoop_val links [] 0 [] (by simp)
  · rintro n hfail ⟨t, ht⟩
    rw [hcl] at ht
    rcases (digestLoop_key links [] 0 [] n).1 ⟨t, ht⟩ with ⟨t', ht'⟩ | ⟨l, hl, hn, hs⟩
    · simp at ht'
    · rw [hfail l hl hn] at hs
      exact Bool.noConfusion hs

/-- Witness for C4 at a concrete ingestion run with one success and one
failure. -/
theorem corpus_entries_nonempty_witness :
    ("a".toList, "hello".toList).2 ≠ ([] : Str) :=
  (corpus_entries_nonempty
      [⟨"a".toList, LinkOutcome.extracted "hello".toList⟩, ⟨"b".toList, LinkOutcome.badUrl⟩]
      [("a".toList, "hello".toList)] 1 ["Invalid URL for b".toList]
      (by decide)).1 ("a".toList, "hello".toList) (by decide)

/-- C5: every excerpt in a returned `SearchHit` has at most 1000 characters;
the context block renders at most 5 entries (`relevant_content[:5]`); and each
rendered entry is the fixed label line plus at most 500 excerpt characters
plus the 5-character `...` ellipsis marker. -/
theorem excerpt_length_bounds (q : Str) (c : List (Str × Str)) (h : SearchHit) (idx : Nat) :
    (h ∈ search_pdfs q c → h.content.length ≤ 1000)
    ∧ (numberFrom 0 ((search_pdfs q c).take 5)).length ≤ 5
    ∧ (∀ hits : List SearchHit, contextBlock hits =
        "Available reference materials:\n\n".toList ++
          (((numberFrom 0 (hits.take 5)).map fun ih => renderEntry ih.1 ih.2).flatten))
    ∧ (renderEntry idx h).length ≤ (sourceLabel idx h).length + 500 + 5 := by
  refine ⟨?_, ?_, fun _ => rfl, ?_⟩
  · intro hmem
    obtain ⟨fc, -, page, -, -, heq⟩ := (mem_search_iff q c h).1 hmem
    subst heq
    exact List.length_take_le 1000 page
  · rw [numberFrom_length]
    exact List.length_take_le 5 _
  · have ht := List.length_take_le 500 h.content
    have h5 : ("...\n\n".toList).length = 5 := by decide
    simp only [renderEntry, List.length_append, h5]
    omega

/-- Witness for C5 at a concrete hit of a concrete search. -/
theorem excerpt_length_bounds_witness :
    ({ filename := "doc1".toList,
       page := pageLabel " 1 ---\nAspirin reduces fever.\n".toList,
       content := (" 1 ---\nAspirin reduces fever.\n".toList).take 1000 } : SearchHit).content.length
      ≤ 1000 :=
  (excerpt_length_bounds "fever".toList
      [("doc1".toList,
        "--- Page 1 ---\nAspirin reduces fever.\n--- Page 2 ---\nIbuprofen reduces inflammation.".toList)]
      _ 0).1 (by decide)

/-- C6: a query with zero matches in a non-empty corpus yields an empty hit
sequence, and composition still succeeds: the outcome is the streamed message
list made of the history turns followed by one user turn whose context block
is the bare header with no source entries. -/
theorem no_match_search_empty_compose (q apiKey : Str) (hist : List Msg)
    (c : List (Str × Str)) (llm : LLMStream)
    (hq : q ≠ []) (hk : apiKey ≠ []) (hc : c ≠ [])
    (hno : ∀ fc ∈ c, ∀ page ∈ splitSeq pageMarker fc.2,
      substrB (pyLower q) (pyLower page) = false) :
    search_pdfs q c = []
    ∧ ask_question q apiKey hist c llm =
        AskOutcome.streamed
          (hist ++ [{ role := "user".toList, content := current_message q [] }])
          (generate llm)
    ∧ current_message q [] =
        questionPreamble ++ "Available reference materials:\n\n".toList ++
          "\n\nQuestion: ".toList ++ q := by
  have hempty : search_pdfs q c = [] := by
    rw [List.eq_nil_iff_forall_not_mem]
    intro hit hmem
    obtain ⟨fc, hfc, page, hpage, hsub, -⟩ := (mem_search_iff q c hit).1 hmem
    rw [hno fc hfc page hpage] at hsub
    exact Bool.noConfusion hsub
  refine ⟨hempty, ?_, ?_⟩
  · simp only [ask_question, isEmpty_false_of_ne _ hq, isEmpty_false_of_ne _ hk,
      isEmpty_false_of_ne _ hc, Bool.false_eq_true, if_false, hempty]
  · simp [current_message, contextBlock, numberFrom]

/-- Witness for C6 at a concrete no-match query. -/
theorem no_match_search_empty_compose_witness :
    search_pdfs "xyz".toList [("d".toList, "--- Page 1 ---\nhello".toList)] = [] :=
  (no_match_search_empty_compose "xyz".toList "k".toList []
      [("d".toList, "--- Page 1 ---\nhello".toList)] LLMStream.ends
      (by decide) (by decide) (by decide) (by decide)).1

set_option maxRecDepth 16384 in
/-- C7: on the two-page aspirin/ibuprofen corpus, the query `fever` yields
exactly one hit for page 1 of `doc1` whose excerpt contains the sentence, and
the composed context contains the line `[Source 1: doc1, Page 1]`. -/
theorem fever_scenario :
    search_pdfs "fever".toList
        [("doc1".toList,
          "--- Page 1 ---\nAspirin reduces fever.\n--- Page 2 ---\nIbuprofen reduces inflammation.".toList)]
      = [{ filename := "doc1".toList, page := "1".toList,
           content := " 1 ---\nAspirin reduces fever.\n".toList }]
    ∧ substrB "Aspirin reduces fever.".toList " 1 ---\nAspirin reduces fever.\n".toList = true
    ∧ substrB "[Source 1: doc1, Page 1]".toList
        (contextBlock (search_pdfs "fever".toList
          [("doc1".toList,
            "--- Page 1 ---\nAspirin reduces fever.\n--- Page 2 ---\nIbuprofen reduces inflammation.".toList)]))
        = true
    ∧ substrB "[Source 1: doc1, Page 1]".toList
        (current_message "fever".toList (search_pdfs "fever".toList
          [("doc1".toList,
            "--- Page 1 ---\nAspirin reduces fever.\n--- Page 2 ---\nIbuprofen reduces inflammation.".toList)]))
        = true := by
  refine ⟨by decide, by decide, by decide, by decide⟩

/-- C8: with a non-empty question and a configured API key but an empty
corpus, `ask_question` rejects the request with the no-reference-material
message before composing anything; in particular no streamed outcome (and thus
no LLM invocation) is ever produced. -/
theorem empty_corpus_short_circuit (q apiKey : Str) (hist : List Msg) (llm : LLMStream)
    (hq : q ≠ []) (hk : apiKey ≠ []) :
    ask_question q apiKey hist [] llm =
      AskOutcome.rejected "No PDFs processed yet. Please contact the administrator.".toList
    ∧ ∀ msgs evs, ask_question q apiKey hist [] llm ≠ AskOutcome.streamed msgs evs := by
  have h1 : ask_question q apiKey hist [] llm =
      AskOutcome.rejected "No PDFs processed yet. Please contact the administrator.".toList := by
    simp only [ask_question, isEmpty_false_of_ne _ hq, isEmpty_false_of_ne _ hk,
      Bool.false_eq_true, if_false]
    rfl
  refine ⟨h1, fun msgs evs hcontra => ?_⟩
  rw [h1] at hcontra
  exact AskOutcome.noConfusion hcontra

/-- Witness for C8 at a concrete question against the empty corpus. -/
theorem empty_corpus_short_circuit_witness :
    ask_question "q".toList "k".toList [] [] LLMStream.ends =
      AskOutcome.rejected "No PDFs processed yet. Please contact the administrator.".toList :=
  (empty_corpus_short_circuit "q".toList "k".toList [] LLMStream.ends
    (by decide) (by decide)).1

/-- C9: a digest run over a non-empty link list overwrites whatever was
previously stored (the result is independent of the prior corpus), the stored
names are exactly the successfully processed link names, and when every link
fails the store becomes the empty mapping while the response still reports
success with one error message per link. -/
theorem digest_overwrites_corpus (prev prev' : List (Str × Str)) (links : List LinkSrc)
    (hl : links ≠ []) :
    saved_after prev links = saved_after prev' links
    ∧ (∀ n : Str, (∃ t, (n, t) ∈ saved_after prev links) ↔
        ∃ l, l ∈ links ∧ l.name = n ∧ isSuccessB l.outcome = true)
    ∧ ((∀ l ∈ links, isSuccessB l.outcome = false) →
        saved_after prev links = [] ∧ digest_pdfs links = some ([], 0, links.map linkError)) := by
  have hE : links.isEmpty = false := isEmpty_false_of_ne links hl
  have hsome : digest_pdfs links = some (digestLoop links [] 0 []) := by
    rw [digest_pdfs]
    simp only [hE, Bool.false_eq_true, if_false]
  have hsa : ∀ P : List (Str × Str), saved_after P links = (digestLoop links [] 0 []).1 := by
    intro P
    rw [saved_after, hsome]
  refine ⟨by rw [hsa prev, hsa prev'], ?_, ?_⟩
  · intro n
    rw [hsa prev, digestLoop_key links [] 0 [] n]
    simp
  · intro hallfail
    have hloop := digestLoop_allfail links [] 0 [] hallfail
    constructor
    · rw [hsa prev, hloop]
    · rw [hsome, hloop]
      simp

/-- Witness for C9 at a concrete all-failing run overwriting a non-empty
previous corpus. -/
theorem digest_overwrites_corpus_witness :
    saved_after [("old".toList, "x".toList)] [⟨"a".toList, LinkOutcome.downloadFailed⟩] = []
    ∧ digest_pdfs [⟨"a".toList, LinkOutcome.downloadFailed⟩] =
        some ([], 0, [⟨"a".toList, LinkOutcome.downloadFailed⟩].map linkError) :=
  (digest_overwrites_corpus [("old".toList, "x".toList)] [("old".toList, "x".toList)]
      [⟨"a".toList, LinkOutcome.downloadFailed⟩] (by decide)).2.2 (by decide)

/-- C10 counterexample: a page text containing the literal marker `--- Page`
produces an extra segment that neither begins with the residual ` N ---`
fragment nor contains any `---` (its label is `Unknown`), so the claimed
segment structure fails as stated. -/
theorem marker_in_page_text_counterexample :
    search_pdfs "z".toList
        [("d".toList, extract_text_from_pdf_bytes (some [PageRead.ok "x--- Page z".toList]))]
      = [{ filename := "d".toList, page := "Unknown".toList, content := " z".toList }]
    ∧ begins (segHead 1) " z".toList = false
    ∧ substrB dashes3 " z".toList = false := by
  refine ⟨by decide, by decide, by decide⟩

/-- C10 amended: for extractor output over pages whose texts do not themselves
contain the literal `--- Page`, the searched segments are the split of the
concatenated text on `--- Page`: the text before the first marker is the extra
searchable segment `"\n"` with label `Unknown`, and every page segment is the
residual ` k ---` fragment and newline followed by the page text (plus the
newline preceding the next marker), with label `k`. -/
theorem page_segments_structure (ts : List Str) (hne : ts ≠ [])
    (H : ∀ t ∈ ts, substrB pageMarker t = false) :
    splitSeq pageMarker (extract_text_from_pdf_bytes (some (ts.map PageRead.ok)))
      = ['\n'] :: segsFrom ts 0
    ∧ pageLabel ['\n'] = "Unknown".toList
    ∧ ∀ seg ∈ segsFrom ts 0, ∃ k t trail, t ∈ ts ∧ seg = segHead k ++ (t ++ trail) ∧
        (trail = [] ∨ trail = ['\n']) ∧ pageLabel seg = natStr k := by
  refine ⟨?_, by decide, ?_⟩
  · rw [show extract_text_from_pdf_bytes (some (ts.map PageRead.ok)) = extractOk ts 0 from
      extractLoop_ok ts 0]
    exact split_extract ts hne H
  · intro seg hseg
    obtain ⟨k, t, trail, hmem, hshape, htrail⟩ := segsFrom_mem ts 0 seg hseg
    refine ⟨k, t, trail, hmem, hshape, htrail, ?_⟩
    rw [hshape]
    exact pageLabel_segHead k (t ++ trail)

/-- Witness for C10 at a concrete one-page document. -/
theorem page_segments_structure_witness :
    splitSeq pageMarker
        (extract_text_from_pdf_bytes (some (["hello world".toList].map PageRead.ok)))
      = ['\n'] :: segsFrom ["hello world".toList] 0 :=
  (page_segments_structure ["hello world".toList] (by decide) (by decide)).1
